import Mathlib

/-!
Shallow embedding of the Quantum Inspire Qiskit backend
(`src/quantuminspire/qiskit/backend_qx.py`) together with the parts of the
circuit parser that the repository references but does not ship.
Python dictionaries are modelled as association lists in insertion order,
hex-encoded classical-state keys by the natural number they denote
(`int(key, 16)` is a bijection between the hex strings produced by `hex`
and the naturals), and floating point probabilities by rational numbers.
Fallible Python code (raising `QisKitBackendError` or `ApiError`) is
modelled with `Except String`.
-/

/-! ### Association lists with aggregation (Python `defaultdict` / `Counter`) -/

/-- Add `kv.2` to the entry of key `kv.1` of the association list, appending a
fresh entry when the key is absent. This is one update of a Python
`defaultdict` with additive default. -/
def addToAssoc {β : Type} [Add β] : List (Nat × β) → Nat × β → List (Nat × β)
  | [], kv => [kv]
  | (k, v) :: rest, kv =>
    if k = kv.1 then (k, v + kv.2) :: rest else (k, v) :: addToAssoc rest kv

/-- Aggregate a list of key/value pairs by adding the values of equal keys,
keeping keys in first-appearance order: the Python pattern
`d = defaultdict(zero); for k, v in l: d[k] += v`. -/
def aggregate {β : Type} [Add β] (l : List (Nat × β)) : List (Nat × β) :=
  l.foldl addToAssoc []

/-- Comparison of entries by numeric key value: the Python sort key
`lambda kv: int(kv[0], 16)`. -/
def keyLE {β : Type} (a b : Nat × β) : Prop := a.1 ≤ b.1

instance {β : Type} : DecidableRel (@keyLE β) := fun a b => Nat.decLe a.1 b.1

instance {β : Type} : IsTotal (Nat × β) keyLE := ⟨fun a b => Nat.le_total a.1 b.1⟩

instance {β : Type} : IsTrans (Nat × β) keyLE := ⟨fun _ _ _ => Nat.le_trans⟩

/-- `OrderedDict(sorted(d.items(), key=lambda kv: int(kv[0], 16)))`. -/
def sortByKey {β : Type} (l : List (Nat × β)) : List (Nat × β) :=
  List.insertionSort keyLE l

/-! ### Data model -/

/-- One entry of `experiment.instructions`: the fields of the Qiskit qobj
instruction that the backend reads. `conditional` records whether the
instruction carries a classical condition. -/
structure QInstruction where
  name : String
  qubits : List Nat := []
  memory : List Nat := []
  conditional : Bool := false
deriving DecidableEq

/-- The fields of `experiment.header` read by the backend. -/
structure QExperimentHeader where
  n_qubits : Nat
  memory_slots : Nat
  name : String := ""
deriving DecidableEq

/-- A compiled Qiskit experiment as seen by the backend. -/
structure QExperiment where
  header : QExperimentHeader
  instructions : List QInstruction
deriving DecidableEq

/-- The quantum job: `qobj.config.shots` and `qobj.experiments`. Shots is an
arbitrary (possibly negative) Python integer. -/
structure Qobj where
  shots : Int
  experiments : List QExperiment
deriving DecidableEq

/-- The measurement dictionary built by `_collect_measurements`:
`{'measurements': [[qubit, clbit], ...], 'number_of_clbits': n}`. -/
structure Measurements where
  measurements : List (Nat × Nat)
  number_of_clbits : Nat
deriving DecidableEq

/-! ### Mask decoder (`CircuitToString.get_mask_data`) -/

/-- Position of the lowest set bit, computed with explicit fuel so that the
recursion is structural; `lowBit` supplies fuel `m`, which is always enough. -/
def lowBitAux : Nat → Nat → Nat
  | 0, _ => 0
  | fuel + 1, m => if m % 2 = 1 then 0 else 1 + lowBitAux fuel (m / 2)

/-- Position of the lowest set bit of a nonzero mask. -/
def lowBit (m : Nat) : Nat := lowBitAux m m

/-- Position of the highest set bit, with explicit fuel. -/
def highBitAux : Nat → Nat → Nat
  | 0, _ => 0
  | fuel + 1, m => if m < 2 then 0 else 1 + highBitAux fuel (m / 2)

/-- Position of the highest set bit of a nonzero mask. -/
def highBit (m : Nat) : Nat := highBitAux m m

/-- Modelled from the spec: `CircuitToString.get_mask_data` lives in
`circuit_parser.py`, which is not shipped under `src/`; only its unit tests
are. Per the spec (section 4.2), the function returns the pair
(lowest set bit position, count of bits spanned from the lowest through the
highest set bit, gaps included), and `(-1, 0)` for a zero mask. -/
def get_mask_data (mask : Nat) : Int × Nat :=
  if mask = 0 then (-1, 0)
  else (Int.ofNat (lowBit mask), highBit mask - lowBit mask + 1)

/-! ### Classical-state projection (`__qubit_to_classical_hex`) -/

/-- Number of binary digits of `n` (one digit for `n = 0` is accounted for in
`hexKey`), computed with explicit fuel so that the recursion is structural. -/
def bitLenAux : Nat → Nat → Nat
  | 0, _ => 0
  | fuel + 1, n => if n = 0 then 0 else 1 + bitLenAux fuel (n / 2)

/-- Number of binary digits of a positive natural number. -/
def bitLen (n : Nat) : Nat := bitLenAux n n

/-- `__qubit_to_classical_hex`: format the measured register value as a binary
string of at least `number_of_qubits` digits (most significant first), copy
digit `q` of that string to position `c` of a string of
`number_of_clbits` zeros for every measurement `(q, c)`, and read the result
back as a number. The Python code returns `hex` of this value; keys are
modelled by the numeric value itself. -/
def hexKey (register : Nat) (meas : Measurements) (number_of_qubits : Nat) : Nat :=
  let L := max number_of_qubits (max 1 (bitLen register))
  let bits := meas.measurements.foldl
    (fun (acc : List Nat) qc =>
      acc.set qc.2 (if register.testBit (L - 1 - qc.1) then 1 else 0))
    (List.replicate meas.number_of_clbits 0)
  bits.foldl (fun acc b => 2 * acc + b) 0

/-! ### Raw provider data -/

/-- The fields of one raw result record returned by the provider API that
`get_experiment_results` reads. `raw_data` stands for
`api.get_raw_data(result['id'])`, the per-shot sample list. -/
structure QIResult where
  histogram : List (Nat × ℚ)
  raw_text : String := ""
  number_of_qubits : Nat
  execution_time_in_seconds : ℚ := 0
  raw_data : List Nat := []
deriving DecidableEq

/-- The user data stored with a submitted job and restored as the result
header (`user_data` minus the popped `measurements`). -/
structure UserHeader where
  name : String := ""
  memory_slots : Nat := 0
deriving DecidableEq

/-- The fields of one provider job record that `get_experiment_results`
reads. -/
structure QIJobRecord where
  name : String := ""
  number_of_shots : Nat := 1
  measurements : Measurements
  user_header : UserHeader := {}
deriving DecidableEq

/-! ### Histogram remapper -/

/-- `__convert_histogram`: project every raw key through the measurement map,
aggregate the probabilities of equal projected keys, and sort by numeric key
value. -/
def convert_histogram (result : QIResult) (meas : Measurements) : List (Nat × ℚ) :=
  sortByKey (aggregate (result.histogram.map
    (fun kv => (hexKey kv.1 meas result.number_of_qubits, kv.2))))

/-- The selection loop of the single-shot fallback of `__convert_result_data`:
walk the histogram accumulating probability mass starting from `acc` and
return the first key whose cumulative mass strictly exceeds `r`, or `none`
when the loop falls through. -/
def pickSample (r : ℚ) : List (Nat × ℚ) → ℚ → Option Nat
  | [], _ => none
  | (k, p) :: rest, acc =>
    if r < acc + p then some k else pickSample r rest (acc + p)

/-- `__convert_result_data`: with per-shot raw data, project every sample and
count the projected values (Python `Counter`); without raw data, synthesize
at most one sample using the uniform draw `r` (the value of
`np.random.rand()`). The count histogram is returned sorted by numeric key
value, alongside the memory trace. -/
def convert_result_data (result : QIResult) (meas : Measurements) (r : ℚ) :
    List (Nat × Nat) × List Nat :=
  let p :=
    if result.raw_data.isEmpty then
      match pickSample r result.histogram 0 with
      | some reg =>
        ([(hexKey reg meas result.number_of_qubits, 1)],
         [hexKey reg meas result.number_of_qubits])
      | none => ([], [])
    else
      let memory := result.raw_data.map
        (fun reg => hexKey reg meas result.number_of_qubits)
      (aggregate (memory.map (fun h => (h, 1))), memory)
  (sortByKey p.1, p.2)

/-! ### Measurement collection and validation -/

/-- The list comprehension of `_collect_measurements`: one
`(number_of_qubits - 1 - qubit, number_of_clbits - 1 - clbit)` pair per
`measure` instruction. -/
def measureMap (e : QExperiment) : List (Nat × Nat) :=
  e.instructions.filterMap
    (fun m => if m.name == "measure" then
        some (e.header.n_qubits - 1 - m.qubits.headI,
              e.header.memory_slots - 1 - m.memory.headI)
      else none)

/-- `_collect_measurements`: the pairs of `measureMap`, or the identity map
over all qubit indices when the circuit has no measurements. -/
def collect_measurements (e : QExperiment) : Measurements :=
  { measurements :=
      if (measureMap e).isEmpty then
        (List.range e.header.n_qubits).map (fun i => (i, i))
      else measureMap e,
    number_of_clbits := e.header.memory_slots }

/-- `__validate_number_of_shots`. -/
def validate_number_of_shots (job : Qobj) : Except String Unit :=
  if job.shots < 1 then
    .error ("Invalid shots (number_of_shots=" ++ toString job.shots ++ ")")
  else .ok ()

/-- `__validate_number_of_clbits`. -/
def validate_number_of_clbits (e : QExperiment) : Except String Unit :=
  if e.header.memory_slots < 1 then
    .error ("Invalid amount of classical bits (" ++ toString e.header.memory_slots ++ ")!")
  else .ok ()

/-- The inner loop of `__validate_no_gates_after_measure` over the qubits of
one instruction: a `measure` appends its qubits to the accumulated list, any
other instruction fails on a qubit already in it. -/
def checkInstr (name : String) : List Nat → List Nat → Except String (List Nat)
  | [], measured => .ok measured
  | q :: qrest, measured =>
    if name == "measure" then checkInstr name qrest (measured ++ [q])
    else if q ∈ measured then .error "Operation after measurement!"
    else checkInstr name qrest measured

/-- The outer loop of `__validate_no_gates_after_measure`. -/
def checkInstrs : List QInstruction → List Nat → Except String Unit
  | [], _ => .ok ()
  | ins :: rest, measured => do
    let measured1 ← checkInstr ins.name ins.qubits measured
    checkInstrs rest measured1

/-- `__validate_no_gates_after_measure`. -/
def validate_no_gates_after_measure (e : QExperiment) : Except String Unit :=
  checkInstrs e.instructions []

/-- The per-experiment part of `__validate`. -/
def validate_experiments : List QExperiment → Except String Unit
  | [] => .ok ()
  | e :: rest => do
    validate_number_of_clbits e
    validate_no_gates_after_measure e
    validate_experiments rest

/-- `__validate`. -/
def validate (job : Qobj) : Except String Unit := do
  validate_number_of_shots job
  validate_experiments job.experiments

/-! ### cQASM generation -/

/-- Modelled from the spec: the fixed gate table of `CircuitToString`
(`circuit_parser.py` is not shipped under `src/`). Section 4.1 of the spec
lists identity, the Paulis, Hadamard, S and its adjoint, T and its adjoint,
swap, controlled-not, controlled-Z, Toffoli, the rotations and the generic
unitaries, plus `barrier`, `measure` and the classical declaration
`bfunc`. -/
def knownGates : List String :=
  ["id", "x", "y", "z", "h", "s", "sdg", "t", "tdg", "swap", "cx", "cz",
   "ccx", "rx", "ry", "rz", "u", "u1", "u2", "u3", "barrier", "measure", "bfunc"]

/-- Modelled from the spec: the cQASM mnemonic of each non-parametrized known
gate, as documented in the spec (section 8) and the repository tests. -/
def mnemonic : String → String
  | "id" => "I"
  | "x" => "X"
  | "y" => "Y"
  | "z" => "Z"
  | "h" => "H"
  | "s" => "S"
  | "sdg" => "Sdag"
  | "t" => "T"
  | "tdg" => "Tdag"
  | "swap" => "SWAP"
  | "cx" => "CNOT"
  | "cz" => "CZ"
  | "ccx" => "Toffoli"
  | "rx" => "Rx"
  | "ry" => "Ry"
  | "rz" => "Rz"
  | _ => ""

/-- Modelled from the spec: the statement emitted for a known unconditional
gate. `barrier` and `bfunc` emit nothing, and `measure` emits nothing under
full-state projection (the only mode `backend_qx.py` uses). Angle arguments
of parametrized gates and conditional wrappers are not modelled; no theorem
below depends on this text. -/
def emitKnown (ins : QInstruction) : Option String :=
  if ins.name ∈ (["barrier", "measure", "bfunc"] : List String) then none
  else some (mnemonic ins.name ++ " " ++
    ", ".intercalate (ins.qubits.map (fun q => "q[" ++ toString q ++ "]")) ++ "\n")

/-- Modelled from the spec: gate dispatch of `CircuitToString`
(`circuit_parser.py` is not shipped under `src/`). An unknown gate name fails
with an unsupported-gate error naming the gate, and with an
unsupported-conditional-gate error naming the conditional form when the
instruction carries a classical condition. -/
def dispatch (ins : QInstruction) : Except String (Option String) :=
  if ins.name ∈ knownGates then .ok (emitKnown ins)
  else if ins.conditional then
    .error ("Conditional gate c-" ++ ins.name ++ " not supported")
  else
    .error ("Gate " ++ ins.name ++ " not supported")

/-- `_generate_cqasm`, abstracted over the emission function obtained from the
parser by `getattr`: write the three header lines, then for each instruction
in order the emitted statement when the parser returns a string. A parser
exception aborts the translation. -/
def generate_cqasm (emit : QInstruction → Except String (Option String))
    (e : QExperiment) : Except String String :=
  (e.instructions.mapM emit).map (fun lines =>
    "version 1.0\n" ++
    "# cQASM generated by QI backend for Qiskit\n" ++
    "qubits " ++ toString e.header.n_qubits ++ "\n" ++
    String.join (lines.filterMap id))

/-- `run`: validate the qobj, then translate and submit every experiment. The
submission payload per experiment is modelled by its cQASM text and its
measurement dictionary. -/
def run (job : Qobj) : Except String (List (String × Measurements)) := do
  validate job
  job.experiments.mapM (fun e => do
    let c ← generate_cqasm dispatch e
    .ok (c, collect_measurements e))

/-! ### Experiment results -/

/-- The Qiskit `ExperimentResultData` built by `get_experiment_results`. -/
structure QExperimentResultData where
  counts : List (Nat × Nat)
  probabilities : List (Nat × ℚ)
  memory : List Nat
deriving DecidableEq

/-- The Qiskit `ExperimentResult` dictionary built by
`get_experiment_results`. -/
structure QExperimentResult where
  name : String
  seed : Nat
  shots : Nat
  data : QExperimentResultData
  status : String
  success : Bool
  time_taken : ℚ
  header : UserHeader
deriving DecidableEq

/-- The body of the loop of `get_experiment_results` for one job: fail when
the raw histogram is empty, otherwise convert the result data and assemble
the experiment result record. `r` is the uniform draw consumed by the
single-shot fallback. -/
def processJobResult (job : QIJobRecord) (result : QIResult) (r : ℚ) :
    Except String QExperimentResult :=
  if result.histogram.isEmpty then
    .error ("Result from backend contains no histogram data!\n" ++ result.raw_text)
  else
    let meas := job.measurements
    let cr := convert_result_data result meas r
    let full := convert_histogram result meas
    .ok { name := job.name, seed := 42, shots := job.number_of_shots,
          data := { counts := cr.1, probabilities := full, memory := cr.2 },
          status := "DONE", success := true,
          time_taken := result.execution_time_in_seconds,
          header := job.user_header }

/-- `get_experiment_results`: process the jobs of the project in order,
aborting the whole call on the first failure. Each input triple carries the
job record, its raw result, and the uniform draw its conversion may
consume. -/
def get_experiment_results :
    List (QIJobRecord × QIResult × ℚ) → Except String (List QExperimentResult)
  | [] => .ok []
  | t :: rest => do
    let res ← processJobResult t.1 t.2.1 t.2.2
    let others ← get_experiment_results rest
    .ok (res :: others)

/-- The qubits measured by the `measure` instructions of a list, in order:
the contents of the `measured_qubits` accumulator of
`__validate_no_gates_after_measure` after processing the list. -/
def measuredIn : List QInstruction → List Nat
  | [] => []
  | i :: rest => (if i.name == "measure" then i.qubits else []) ++ measuredIn rest

/-- An experiment contains a non-`measure` instruction acting on a qubit that
an earlier `measure` instruction already measured. -/
def OpAfterMeasure (e : QExperiment) : Prop :=
  ∃ pre ins post, e.instructions = pre ++ ins :: post ∧
    ¬ ins.name = "measure" ∧ ∃ q ∈ ins.qubits, q ∈ measuredIn pre

/-! ### Small lemmas on `Except` -/

lemma errorBind {ε α β : Type} (e : ε) (f : α → Except ε β) :
    (Except.error e >>= f) = Except.error e := rfl

lemma okBind {ε α β : Type} (a : α) (f : α → Except ε β) :
    (Except.ok a >>= f) = f a := rfl

/-! ### Lemmas on the mask decoder -/

lemma lowBitAux_testBit : ∀ fuel m, m ≠ 0 → m ≤ fuel →
    m.testBit (lowBitAux fuel m) = true := by
  intro fuel
  induction fuel with
  | zero => intro m hm hle; omega
  | succ fuel ih =>
    intro m hm hle
    by_cases h : m % 2 = 1
    · simp [lowBitAux, h]
    · have hm2 : m % 2 = 0 := by omega
      have hne : m / 2 ≠ 0 := by omega
      have hle2 : m / 2 ≤ fuel := by omega
      have := ih (m / 2) hne hle2
      simp only [lowBitAux, h, if_false, Nat.add_comm 1, Nat.testBit_add_one]
      exact this

lemma lowBitAux_min : ∀ fuel m i, m ≤ fuel → m.testBit i = true →
    lowBitAux fuel m ≤ i := by
  intro fuel
  induction fuel with
  | zero =>
    intro m i hle ht
    have : m = 0 := by omega
    subst this
    simp [Nat.zero_testBit] at ht
  | succ fuel ih =>
    intro m i hle ht
    by_cases h : m % 2 = 1
    · simp [lowBitAux, h]
    · have hm : m ≠ 0 := by
        intro h0; subst h0; simp [Nat.zero_testBit] at ht
      have hle2 : m / 2 ≤ fuel := by omega
      cases i with
      | zero => simp [h] at ht
      | succ j =>
        rw [Nat.testBit_add_one] at ht
        have := ih (m / 2) j hle2 ht
        simp only [lowBitAux, h, if_false]
        omega

lemma highBitAux_testBit : ∀ fuel m, m ≠ 0 → m ≤ fuel →
    m.testBit (highBitAux fuel m) = true := by
  intro fuel
  induction fuel with
  | zero => intro m hm hle; omega
  | succ fuel ih =>
    intro m hm hle
    by_cases h : m < 2
    · have : m = 1 := by omega
      subst this
      simp [highBitAux]
    · have hne : m / 2 ≠ 0 := by omega
      have hle2 : m / 2 ≤ fuel := by omega
      have := ih (m / 2) hne hle2
      simp only [highBitAux, h, if_false, Nat.add_comm 1, Nat.testBit_add_one]
      exact this

lemma highBitAux_max : ∀ fuel m i, m ≤ fuel → m.testBit i = true →
    i ≤ highBitAux fuel m := by
  intro fuel
  induction fuel with
  | zero =>
    intro m i hle ht
    have : m = 0 := by omega
    subst this
    simp [Nat.zero_testBit] at ht
  | succ fuel ih =>
    intro m i hle ht
    by_cases h : m < 2
    · interval_cases m
      · simp [Nat.zero_testBit] at ht
      · cases i with
        | zero => simp [highBitAux]
        | succ j => rw [Nat.testBit_add_one] at ht; simp [Nat.zero_testBit] at ht
    · have hle2 : m / 2 ≤ fuel := by omega
      cases i with
      | zero => simp [highBitAux, h]
      | succ j =>
        rw [Nat.testBit_add_one] at ht
        have := ih (m / 2) j hle2 ht
        simp only [highBitAux, h, if_false]
        omega

/-! ### Claim C2 -/

/-- C2: `get_mask_data`, applied to any non-negative integer bitmask, returns
the pair (lowest set bit position, number of bits spanned from the lowest set
bit through the highest set bit, counting unset gap bits inside the span),
returns `(-1, 0)` for mask 0, and in particular agrees with the seven test
vectors of the repository test suite. -/
theorem get_mask_data_spec :
    get_mask_data 0 = (-1, 0) ∧
    (∀ mask : Nat, mask ≠ 0 → ∃ lo hi : Nat,
      mask.testBit lo = true ∧ mask.testBit hi = true ∧
      (∀ i, mask.testBit i = true → lo ≤ i ∧ i ≤ hi) ∧
      get_mask_data mask = (Int.ofNat lo, hi - lo + 1)) ∧
    get_mask_data 1 = (0, 1) ∧ get_mask_data 56 = (3, 3) ∧
    get_mask_data 255 = (0, 8) ∧ get_mask_data 510 = (1, 8) ∧
    get_mask_data 128 = (7, 1) ∧ get_mask_data 192 = (6, 2) := by
  refine ⟨by decide, ?_, by decide, by decide, by decide, by decide, by decide, by decide⟩
  intro mask hmask
  refine ⟨lowBit mask, highBit mask, ?_, ?_, ?_, ?_⟩
  · exact lowBitAux_testBit mask mask hmask le_rfl
  · exact highBitAux_testBit mask mask hmask le_rfl
  · intro i hi
    exact ⟨lowBitAux_min mask mask i le_rfl hi, highBitAux_max mask mask i le_rfl hi⟩
  · simp [get_mask_data, hmask, lowBit, highBit]

/-- C2 witness: the general characterization evaluated at mask 56. -/
theorem get_mask_data_spec_witness :
    ∃ lo hi : Nat, (56 : Nat).testBit lo = true ∧ (56 : Nat).testBit hi = true ∧
      (∀ i, (56 : Nat).testBit i = true → lo ≤ i ∧ i ≤ hi) ∧
      get_mask_data 56 = (Int.ofNat lo, hi - lo + 1) :=
  get_mask_data_spec.2.1 56 (by decide)

/-! ### Lemmas on aggregation and sorting -/

lemma sum_addToAssoc {β : Type} [AddCommMonoid β] (acc : List (Nat × β)) (kv : Nat × β) :
    ((addToAssoc acc kv).map Prod.snd).sum = (acc.map Prod.snd).sum + kv.2 := by
  induction acc with
  | nil => simp [addToAssoc]
  | cons hd tl ih =>
    obtain ⟨k, v⟩ := hd
    by_cases h : k = kv.1
    · simp [addToAssoc, h, add_assoc, add_comm, add_left_comm]
    · simp [addToAssoc, h, ih, add_assoc]

lemma sum_foldl_addToAssoc {β : Type} [AddCommMonoid β] :
    ∀ (l acc : List (Nat × β)),
      ((l.foldl addToAssoc acc).map Prod.snd).sum =
        (acc.map Prod.snd).sum + (l.map Prod.snd).sum := by
  intro l
  induction l with
  | nil => simp
  | cons hd tl ih =>
    intro acc
    simp only [List.foldl_cons, ih, sum_addToAssoc, List.map_cons, List.sum_cons]
    rw [add_assoc]

lemma sum_aggregate {β : Type} [AddCommMonoid β] (l : List (Nat × β)) :
    ((aggregate l).map Prod.snd).sum = (l.map Prod.snd).sum := by
  simpa using sum_foldl_addToAssoc l []

lemma keys_addToAssoc {β : Type} [Add β] (acc : List (Nat × β)) (kv : Nat × β) :
    (addToAssoc acc kv).map Prod.fst =
      if kv.1 ∈ acc.map Prod.fst then acc.map Prod.fst
      else acc.map Prod.fst ++ [kv.1] := by
  induction acc with
  | nil => simp [addToAssoc]
  | cons hd tl ih =>
    obtain ⟨k, v⟩ := hd
    by_cases h : k = kv.1
    · simp [addToAssoc, h]
    · have h2 : kv.1 ≠ k := fun he => h he.symm
      by_cases hm : kv.1 ∈ tl.map Prod.fst
      · simp [addToAssoc, h, ih, hm, h2]
      · simp [addToAssoc, h, ih, hm, h2]

lemma nodup_keys_addToAssoc {β : Type} [Add β] (acc : List (Nat × β)) (kv : Nat × β)
    (h : (acc.map Prod.fst).Nodup) : ((addToAssoc acc kv).map Prod.fst).Nodup := by
  rw [keys_addToAssoc]
  by_cases hm : kv.1 ∈ acc.map Prod.fst
  · simpa [hm] using h
  · simp [hm, List.nodup_append, h]

lemma nodup_keys_foldl_addToAssoc {β : Type} [Add β] :
    ∀ (l acc : List (Nat × β)), (acc.map Prod.fst).Nodup →
      ((l.foldl addToAssoc acc).map Prod.fst).Nodup := by
  intro l
  induction l with
  | nil => intro acc h; simpa using h
  | cons hd tl ih =>
    intro acc h
    exact ih (addToAssoc acc hd) (nodup_keys_addToAssoc acc hd h)

lemma nodup_keys_aggregate {β : Type} [Add β] (l : List (Nat × β)) :
    ((aggregate l).map Prod.fst).Nodup :=
  nodup_keys_foldl_addToAssoc l [] (by simp)

lemma sortByKey_perm {β : Type} (l : List (Nat × β)) : List.Perm (sortByKey l) l :=
  List.perm_insertionSort keyLE l

lemma pairwise_lt_keys_sortByKey {β : Type} (l : List (Nat × β))
    (h : (l.map Prod.fst).Nodup) :
    ((sortByKey l).map Prod.fst).Pairwise (· < ·) := by
  have hs : List.Sorted keyLE (sortByKey l) := List.sorted_insertionSort keyLE l
  have hnd : ((sortByKey l).map Prod.fst).Nodup :=
    (((sortByKey_perm l).map Prod.fst).nodup_iff).mpr h
  rw [List.pairwise_map]
  have h2 : (sortByKey l).Pairwise (fun a b => a.1 ≠ b.1) :=
    List.pairwise_map.mp hnd
  exact (List.Pairwise.and hs h2).imp (fun hab => lt_of_le_of_ne hab.1 hab.2)

/-! ### Claim C3 -/

/-- C3: `__convert_histogram` preserves total probability mass: the sum of
the values of the classical-bit histogram equals the sum of the values of the
raw histogram, for every raw histogram and measurement map. -/
theorem convert_histogram_mass (result : QIResult) (meas : Measurements) :
    ((convert_histogram result meas).map Prod.snd).sum =
      (result.histogram.map Prod.snd).sum := by
  unfold convert_histogram
  rw [((sortByKey_perm _).map Prod.snd).sum_eq, sum_aggregate]
  rw [List.map_map]
  rfl

/-! ### Claim C4 -/

/-- C4: every histogram returned to the caller (the probability histogram of
`__convert_histogram` and the count histogram of `__convert_result_data`) is
strictly ascending in the numeric value of its keys: consecutive keys
satisfy `k1 < k2` (stated as pairwise order, which implies it). -/
theorem histograms_sorted (result : QIResult) (meas : Measurements) (r : ℚ) :
    ((convert_histogram result meas).map Prod.fst).Pairwise (· < ·) ∧
    (((convert_result_data result meas r).1).map Prod.fst).Pairwise (· < ·) := by
  constructor
  · exact pairwise_lt_keys_sortByKey _ (nodup_keys_aggregate _)
  · unfold convert_result_data
    by_cases hraw : result.raw_data.isEmpty
    · cases hp : pickSample r result.histogram 0 with
      | none => simp [hraw, hp]; exact pairwise_lt_keys_sortByKey [] (by simp)
      | some reg =>
        simp only [hraw, if_true, hp]
        exact pairwise_lt_keys_sortByKey _ (by simp)
    · simp only [hraw, if_false]
      exact pairwise_lt_keys_sortByKey _ (nodup_keys_aggregate _)

/-! ### Lemmas on the single-shot fallback -/

lemma pickSample_some_spec (r : ℚ) :
    ∀ (l : List (Nat × ℚ)) (acc : ℚ) (reg : Nat), pickSample r l acc = some reg →
      ∃ pre kv post, l = pre ++ kv :: post ∧ kv.1 = reg ∧
        r < acc + ((pre.map Prod.snd).sum + kv.2) ∧
        ∀ pre1 kv2 pre2, pre = pre1 ++ kv2 :: pre2 →
          acc + ((pre1.map Prod.snd).sum + kv2.2) ≤ r := by
  intro l
  induction l with
  | nil => intro acc reg h; simp [pickSample] at h
  | cons hd tl ih =>
    intro acc reg h
    obtain ⟨k, p⟩ := hd
    by_cases hcmp : r < acc + p
    · simp only [pickSample, hcmp, if_true, Option.some.injEq] at h
      refine ⟨[], (k, p), tl, by simp, h, by simpa using hcmp, ?_⟩
      intro pre1 kv2 pre2 habs
      exact absurd habs (by simp)
    · simp only [pickSample, hcmp, if_false] at h
      obtain ⟨pre, kv, post, hdec, hkey, hlt, hmin⟩ := ih (acc + p) reg h
      refine ⟨(k, p) :: pre, kv, post, by simp [hdec], hkey, by
        simp only [List.map_cons, List.sum_cons]
        linarith, ?_⟩
      intro pre1 kv2 pre2 hsplit
      cases pre1 with
      | nil =>
        simp only [List.nil_append, List.cons.injEq] at hsplit
        obtain ⟨hkv2, -⟩ := hsplit
        subst hkv2
        simpa using le_of_not_lt hcmp
      | cons hd1 tl1 =>
        simp only [List.cons_append, List.cons.injEq] at hsplit
        obtain ⟨hhd, htl⟩ := hsplit
        subst hhd
        have := hmin tl1 kv2 pre2 htl
        simp only [List.map_cons, List.sum_cons]
        linarith

lemma pickSample_total (r : ℚ) :
    ∀ (l : List (Nat × ℚ)) (acc : ℚ), l ≠ [] → r < acc + (l.map Prod.snd).sum →
      ∃ reg, pickSample r l acc = some reg := by
  intro l
  induction l with
  | nil => intro acc h; exact absurd rfl h
  | cons hd tl ih =>
    intro acc hne hsum
    obtain ⟨k, p⟩ := hd
    by_cases hcmp : r < acc + p
    · exact ⟨k, by simp [pickSample, hcmp]⟩
    · cases tl with
      | nil =>
        exfalso
        simp only [List.map_cons, List.map_nil, List.sum_cons, List.sum_nil,
          add_zero] at hsum
        exact hcmp hsum
      | cons hd2 tl2 =>
        obtain ⟨reg, hreg⟩ := ih (acc + p) (by simp) (by
          simp only [List.map_cons, List.sum_cons] at hsum ⊢
          linarith)
        refine ⟨reg, ?_⟩
        simp only [pickSample, hcmp, if_false]
        simpa [pickSample] using hreg

/-! ### Claim C1 -/

/-- C1 counterexample: with the raw per-shot list empty, a non-empty
histogram whose masses sum to one half, and the admissible uniform draw
`r = 3/4` in `[0, 1)`, the remapper synthesizes no sample at all: the
returned memory trace and count histogram are both empty, not singletons. -/
theorem convert_result_data_single_shot_cex :
    ((0 : ℚ) ≤ 3 / 4 ∧ (3 : ℚ) / 4 < 1) ∧
      ([((0 : Nat), (1 : ℚ) / 2)] ≠ ([] : List (Nat × ℚ))) ∧
      convert_result_data
        { histogram := [(0, 1 / 2)], raw_text := "", number_of_qubits := 1,
          execution_time_in_seconds := 0, raw_data := [] }
        { measurements := [(0, 0)], number_of_clbits := 1 } (3 / 4) = ([], []) := by
  refine ⟨⟨by norm_num, by norm_num⟩, by simp, ?_⟩
  have hpick : pickSample (3 / 4) [((0 : Nat), (2⁻¹ : ℚ))] 0 = none := by
    simp only [pickSample, zero_add]
    rw [if_neg (by norm_num)]
  simp [convert_result_data, hpick, sortByKey]

/-- C1 (amended): when the raw per-shot list is empty and the uniform draw
`r` in `[0, 1)` is below the total probability mass of the (non-empty)
histogram — which always holds when the masses sum to at least one — the
remapper synthesizes exactly one sample: the first histogram entry in
iteration order whose cumulative probability mass exceeds `r`; the returned
memory trace and count histogram consist of exactly the classical-bit
projection of that key, with count 1, and the key is present in the supplied
histogram. When `r` is not below the total mass, no sample is synthesized. -/
theorem convert_result_data_single_shot (result : QIResult) (meas : Measurements)
    (r : ℚ) (hraw : result.raw_data = []) (hr0 : 0 ≤ r)
    (hrs : r < (result.histogram.map Prod.snd).sum) :
    ∃ reg pre kv post,
      result.histogram = pre ++ kv :: post ∧ kv.1 = reg ∧
      r < (pre.map Prod.snd).sum + kv.2 ∧
      (∀ pre1 kv2 pre2, pre = pre1 ++ kv2 :: pre2 →
        (pre1.map Prod.snd).sum + kv2.2 ≤ r) ∧
      reg ∈ result.histogram.map Prod.fst ∧
      convert_result_data result meas r =
        ([(hexKey reg meas result.number_of_qubits, 1)],
         [hexKey reg meas result.number_of_qubits]) := by
  have hne : result.histogram ≠ [] := by
    intro h0
    rw [h0] at hrs
    simp at hrs
    linarith
  obtain ⟨reg, hreg⟩ := pickSample_total r result.histogram 0 hne (by linarith)
  obtain ⟨pre, kv, post, hdec, hkey, hlt, hmin⟩ :=
    pickSample_some_spec r result.histogram 0 reg hreg
  refine ⟨reg, pre, kv, post, hdec, hkey, by linarith, ?_, ?_, ?_⟩
  · intro pre1 kv2 pre2 hsplit
    have := hmin pre1 kv2 pre2 hsplit
    linarith
  · rw [hdec, ← hkey]
    simp
  · have hempty : result.raw_data.isEmpty := by simp [hraw]
    simp [convert_result_data, hempty, hreg, sortByKey]

/-- C1 witness: the amended theorem evaluated on the two-entry histogram
`{0 ↦ 1/2, 1 ↦ 1/2}` with draw `r = 3/4`. -/
theorem convert_result_data_single_shot_witness :
    ∃ reg pre kv post,
      (QIResult.histogram
        { histogram := [((0 : Nat), (1 : ℚ) / 2), (1, 1 / 2)], raw_text := "",
          number_of_qubits := 1, execution_time_in_seconds := 0,
          raw_data := [] }) = pre ++ kv :: post ∧ kv.1 = reg ∧
      (3 : ℚ) / 4 < (pre.map Prod.snd).sum + kv.2 ∧
      (∀ pre1 kv2 pre2, pre = pre1 ++ kv2 :: pre2 →
        (pre1.map Prod.snd).sum + kv2.2 ≤ (3 : ℚ) / 4) ∧
      reg ∈ (List.map Prod.fst [((0 : Nat), (1 : ℚ) / 2), (1, 1 / 2)]) ∧
      convert_result_data
        { histogram := [(0, 1 / 2), (1, 1 / 2)], raw_text := "",
          number_of_qubits := 1, execution_time_in_seconds := 0, raw_data := [] }
        { measurements := [(0, 0)], number_of_clbits := 1 } (3 / 4) =
        ([(hexKey reg { measurements := [(0, 0)], number_of_clbits := 1 } 1, 1)],
         [hexKey reg { measurements := [(0, 0)], number_of_clbits := 1 } 1]) :=
  convert_result_data_single_shot
    { histogram := [(0, 1 / 2), (1, 1 / 2)], raw_text := "",
      number_of_qubits := 1, execution_time_in_seconds := 0, raw_data := [] }
    { measurements := [(0, 0)], number_of_clbits := 1 } (3 / 4)
    rfl (by norm_num) (by norm_num)

/-! ### Claim C5 -/

/-- C5: a job result with an empty (or missing) histogram makes
`get_experiment_results` fail with the missing-histogram-data error carrying
the diagnostic `raw_text` of the data source, and no experiment result is
produced; a non-empty histogram never triggers this error. -/
theorem missing_histogram_error (job : QIJobRecord) (result : QIResult) (r : ℚ) :
    (result.histogram = [] →
      processJobResult job result r =
        .error ("Result from backend contains no histogram data!\n" ++ result.raw_text)) ∧
    (result.histogram ≠ [] → ∃ res, processJobResult job result r = .ok res) := by
  constructor
  · intro h
    simp [processJobResult, h]
  · intro h
    have hne : ¬ result.histogram.isEmpty = true := by
      simpa [List.isEmpty_iff] using h
    refine ⟨{ name := job.name, seed := 42, shots := job.number_of_shots,
              data := { counts := (convert_result_data result job.measurements r).1,
                        probabilities := convert_histogram result job.measurements,
                        memory := (convert_result_data result job.measurements r).2 },
              status := "DONE", success := true,
              time_taken := result.execution_time_in_seconds,
              header := job.user_header }, ?_⟩
    unfold processJobResult
    rw [if_neg hne]

/-- C5 witness: the error branch on a result with diagnostic text `diag`, and
the success branch on a result with a one-entry histogram. -/
theorem missing_histogram_error_witness :
    processJobResult
        { name := "exp", number_of_shots := 1,
          measurements := { measurements := [(0, 0)], number_of_clbits := 1 } }
        { histogram := [], raw_text := "diag", number_of_qubits := 1 } 0 =
      .error ("Result from backend contains no histogram data!\n" ++ "diag") ∧
    ∃ res, processJobResult
        { name := "exp", number_of_shots := 1,
          measurements := { measurements := [(0, 0)], number_of_clbits := 1 } }
        { histogram := [(0, 1)], raw_text := "", number_of_qubits := 1,
          raw_data := [0] } 0 = .ok res :=
  ⟨(missing_histogram_error _ _ _).1 rfl,
   (missing_histogram_error _ _ _).2 (by simp)⟩

/-! ### Claim C10 -/

lemma processJobResult_fields (job : QIJobRecord) (result : QIResult) (r : ℚ)
    (res : QExperimentResult) (h : processJobResult job result r = .ok res) :
    res.success = true ∧ res.status = "DONE" ∧ res.seed = 42 := by
  by_cases he : result.histogram.isEmpty
  · simp [processJobResult, he] at h
  · simp only [processJobResult, he, Bool.false_eq_true, if_false,
      Except.ok.injEq] at h
    subst h
    exact ⟨rfl, rfl, rfl⟩

/-- C10: every experiment result returned by `get_experiment_results` has
`success = true`, `status = "DONE"` and `seed = 42`, regardless of the
content of the provider result records. -/
theorem results_hardcoded_fields :
    ∀ (inputs : List (QIJobRecord × QIResult × ℚ)) (out : List QExperimentResult),
      get_experiment_results inputs = .ok out →
      ∀ res ∈ out, res.success = true ∧ res.status = "DONE" ∧ res.seed = 42 := by
  intro inputs
  induction inputs with
  | nil =>
    intro out h res hres
    simp only [get_experiment_results, Except.ok.injEq] at h
    subst h
    simp at hres
  | cons t rest ih =>
    intro out h res hres
    simp only [get_experiment_results] at h
    cases hp : processJobResult t.1 t.2.1 t.2.2 with
    | error e => rw [hp, errorBind] at h; exact Except.noConfusion h
    | ok r0 =>
      rw [hp, okBind] at h
      cases hr : get_experiment_results rest with
      | error e => rw [hr, errorBind] at h; exact Except.noConfusion h
      | ok others =>
        rw [hr, okBind] at h
        simp only [Except.ok.injEq] at h
        subst h
        rcases List.mem_cons.mp hres with hres | hres
        · subst hres
          exact processJobResult_fields t.1 t.2.1 t.2.2 res hp
        · exact ih others hr res hres

/-- C10 witness: a one-job project; the returned experiment result carries
the hard-coded fields. -/
theorem results_hardcoded_fields_witness :
    ({ name := "exp", seed := 42, shots := 25,
       data := { counts := [(0, 1)], probabilities := [((0 : Nat), (1 : ℚ))],
                 memory := [0] },
       status := "DONE", success := true, time_taken := 0,
       header := { name := "", memory_slots := 0 } } : QExperimentResult).success = true ∧
    ({ name := "exp", seed := 42, shots := 25,
       data := { counts := [(0, 1)], probabilities := [((0 : Nat), (1 : ℚ))],
                 memory := [0] },
       status := "DONE", success := true, time_taken := 0,
       header := { name := "", memory_slots := 0 } } : QExperimentResult).status = "DONE" ∧
    ({ name := "exp", seed := 42, shots := 25,
       data := { counts := [(0, 1)], probabilities := [((0 : Nat), (1 : ℚ))],
                 memory := [0] },
       status := "DONE", success := true, time_taken := 0,
       header := { name := "", memory_slots := 0 } } : QExperimentResult).seed = 42 :=
  results_hardcoded_fields
    [({ name := "exp", number_of_shots := 25,
        measurements := { measurements := [(0, 0)], number_of_clbits := 1 } },
      { histogram := [((0 : Nat), (1 : ℚ))], raw_text := "",
        number_of_qubits := 1, raw_data := [0] }, 0)]
    [{ name := "exp", seed := 42, shots := 25,
       data := { counts := [(0, 1)], probabilities := [((0 : Nat), (1 : ℚ))],
                 memory := [0] },
       status := "DONE", success := true, time_taken := 0,
       header := { name := "", memory_slots := 0 } }] rfl
    { name := "exp", seed := 42, shots := 25,
      data := { counts := [(0, 1)], probabilities := [((0 : Nat), (1 : ℚ))],
                memory := [0] },
      status := "DONE", success := true, time_taken := 0,
      header := { name := "", memory_slots := 0 } }
    (List.mem_singleton.mpr rfl)

/-! ### Claim C6 -/

lemma filterMap_if {α β : Type} (p : α → Bool) (f : α → β) :
    ∀ l : List α,
      l.filterMap (fun m => if p m then some (f m) else none) = (l.filter p).map f := by
  intro l
  induction l with
  | nil => rfl
  | cons hd tl ih =>
    cases h : p hd <;> simp [List.filterMap_cons, List.filter_cons, h, ih]

/-- C6: `_collect_measurements` builds the measurement map from the `measure`
instructions, one qubit-index/classical-bit-index pair per measure
instruction; it returns the identity map over all declared qubit indices when
there are none, and always reports the declared number of classical bits. -/
theorem collect_measurements_spec (e : QExperiment) :
    (collect_measurements e).number_of_clbits = e.header.memory_slots ∧
    (e.instructions.filter (fun m => m.name == "measure") ≠ [] →
      (collect_measurements e).measurements =
        (e.instructions.filter (fun m => m.name == "measure")).map
          (fun m => (e.header.n_qubits - 1 - m.qubits.headI,
                     e.header.memory_slots - 1 - m.memory.headI)) ∧
      (collect_measurements e).measurements.length =
        (e.instructions.filter (fun m => m.name == "measure")).length) ∧
    (e.instructions.filter (fun m => m.name == "measure") = [] →
      (collect_measurements e).measurements =
        (List.range e.header.n_qubits).map (fun i => (i, i))) := by
  have hmm : measureMap e =
      (e.instructions.filter (fun m => m.name == "measure")).map
        (fun m => (e.header.n_qubits - 1 - m.qubits.headI,
                   e.header.memory_slots - 1 - m.memory.headI)) :=
    filterMap_if _ _ _
  refine ⟨rfl, ?_, ?_⟩
  · intro hne
    have hni : ¬ (measureMap e).isEmpty = true := by
      rw [hmm]
      simp [List.isEmpty_iff, hne]
    have hms : (collect_measurements e).measurements = measureMap e := by
      simp only [collect_measurements]
      rw [if_neg hni]
    refine ⟨by rw [hms, hmm], ?_⟩
    rw [hms, hmm]
    exact List.length_map _ _
  · intro hemp
    have hni : (measureMap e).isEmpty = true := by
      rw [hmm]
      simp [hemp]
    simp only [collect_measurements]
    rw [if_pos hni]

/-- C6 witness: the explicit map on a circuit with two measurements, and the
identity map on a circuit with none. -/
theorem collect_measurements_spec_witness :
    (collect_measurements
        { header := { n_qubits := 2, memory_slots := 2 },
          instructions := [{ name := "h", qubits := [0] },
                           { name := "measure", qubits := [0], memory := [0] },
                           { name := "measure", qubits := [1], memory := [1] }] }).measurements =
      [(1, 1), (0, 0)] ∧
    (collect_measurements
        { header := { n_qubits := 3, memory_slots := 3 },
          instructions := [{ name := "h", qubits := [0] }] }).measurements =
      [(0, 0), (1, 1), (2, 2)] := by
  constructor
  · have h := (collect_measurements_spec
      { header := { n_qubits := 2, memory_slots := 2 },
        instructions := [{ name := "h", qubits := [0] },
                         { name := "measure", qubits := [0], memory := [0] },
                         { name := "measure", qubits := [1], memory := [1] }]}).2.1
      (by decide)
    rw [h.1]
    decide
  · have h := (collect_measurements_spec
      { header := { n_qubits := 3, memory_slots := 3 },
        instructions := [{ name := "h", qubits := [0] }] }).2.2 (by decide)
    rw [h]
    decide

/-! ### Claim C7 -/

/-- C7: an instruction whose gate name is not in the fixed table of known
gates fails translation with an unsupported-gate error naming the gate, and
with an unsupported-conditional-gate error naming the conditional form when
the instruction carries a classical condition; both are typed errors of the
translation step. -/
theorem unknown_gate_error (name : String) (h : name ∉ knownGates) :
    (∀ qubits memory : List Nat,
      dispatch { name := name, qubits := qubits, memory := memory,
                 conditional := false } =
        .error ("Gate " ++ name ++ " not supported")) ∧
    (∀ qubits memory : List Nat,
      dispatch { name := name, qubits := qubits, memory := memory,
                 conditional := true } =
        .error ("Conditional gate c-" ++ name ++ " not supported")) := by
  constructor <;> intro qubits memory <;> simp [dispatch, h]

/-- C7 witness: the unknown gate `bla`, unconditional and conditional. -/
theorem unknown_gate_error_witness :
    (∀ qubits memory : List Nat,
      dispatch { name := "bla", qubits := qubits, memory := memory,
                 conditional := false } =
        .error ("Gate " ++ "bla" ++ " not supported")) ∧
    (∀ qubits memory : List Nat,
      dispatch { name := "bla", qubits := qubits, memory := memory,
                 conditional := true } =
        .error ("Conditional gate c-" ++ "bla" ++ " not supported")) :=
  unknown_gate_error "bla" (by decide)

/-! ### Claim C8 -/

/-- C8: every successful translation output of `_generate_cqasm` is exactly
the three header lines — the version line, the fixed comment line, and the
qubit-count declaration rendered in decimal — followed only by the statements
emitted for the instructions, in order. -/
theorem generate_cqasm_header (emit : QInstruction → Except String (Option String))
    (e : QExperiment) (s : String) (h : generate_cqasm emit e = .ok s) :
    ∃ lines, e.instructions.mapM emit = .ok lines ∧
      s = "version 1.0\n" ++ "# cQASM generated by QI backend for Qiskit\n" ++
          ("qubits " ++ toString e.header.n_qubits ++ "\n") ++
          String.join (lines.filterMap id) := by
  unfold generate_cqasm at h
  cases hm : e.instructions.mapM emit with
  | error err => rw [hm] at h; simp [Except.map] at h
  | ok lines =>
    rw [hm] at h
    simp only [Except.map, Except.ok.injEq] at h
    exact ⟨lines, rfl, h.symm⟩

/-- C8 witness: the header of an instruction-free two-qubit experiment
translated with the modelled parser. -/
theorem generate_cqasm_header_witness :
    ∃ lines, (([] : List QInstruction).mapM dispatch) = .ok lines ∧
      "version 1.0\n# cQASM generated by QI backend for Qiskit\nqubits 2\n" =
        "version 1.0\n" ++ "# cQASM generated by QI backend for Qiskit\n" ++
        ("qubits " ++ toString (2 : Nat) ++ "\n") ++
        String.join (lines.filterMap id) :=
  generate_cqasm_header dispatch
    { header := { n_qubits := 2, memory_slots := 2 }, instructions := [] }
    "version 1.0\n# cQASM generated by QI backend for Qiskit\nqubits 2\n" rfl

/-! ### Lemmas on validation -/

lemma checkInstr_measure (name : String) (h : (name == "measure") = true) :
    ∀ qs measured : List Nat, checkInstr name qs measured = .ok (measured ++ qs) := by
  intro qs
  induction qs with
  | nil => intro measured; simp [checkInstr]
  | cons q qrest ih =>
    intro measured
    simp only [checkInstr, h, if_true]
    rw [ih]
    simp

lemma checkInstr_other_ok (name : String) (h : (name == "measure") = false) :
    ∀ qs measured : List Nat, (∀ q ∈ qs, q ∉ measured) →
      checkInstr name qs measured = .ok measured := by
  intro qs
  induction qs with
  | nil => intro measured _; rfl
  | cons q qrest ih =>
    intro measured hq
    have h1 : q ∉ measured := hq q (by simp)
    simp only [checkInstr, h, Bool.false_eq_true, if_false]
    rw [if_neg h1]
    exact ih measured (fun x hx => hq x (by simp [hx]))

lemma checkInstr_other_err (name : String) (h : (name == "measure") = false) :
    ∀ qs measured : List Nat, (∃ q ∈ qs, q ∈ measured) →
      checkInstr name qs measured = .error "Operation after measurement!" := by
  intro qs
  induction qs with
  | nil =>
    rintro measured ⟨q, hq, -⟩
    simp at hq
  | cons q qrest ih =>
    rintro measured ⟨x, hx, hxm⟩
    simp only [checkInstr, h, Bool.false_eq_true, if_false]
    by_cases h1 : q ∈ measured
    · rw [if_pos h1]
    · rw [if_neg h1]
      apply ih
      rcases List.mem_cons.mp hx with rfl | hx2
      · exact absurd hxm h1
      · exact ⟨x, hx2, hxm⟩

lemma checkInstr_error_msg (name : String) :
    ∀ (qs measured : List Nat) (m : String), checkInstr name qs measured = .error m →
      m = "Operation after measurement!" := by
  intro qs
  induction qs with
  | nil => intro measured m hm; exact Except.noConfusion hm
  | cons q qrest ih =>
    intro measured m hm
    by_cases h : (name == "measure") = true
    · simp only [checkInstr, h, if_true] at hm
      exact ih _ m hm
    · have hf : (name == "measure") = false := by simpa using h
      simp only [checkInstr, hf, Bool.false_eq_true, if_false] at hm
      by_cases h1 : q ∈ measured
      · rw [if_pos h1] at hm
        injection hm with h2
        exact h2.symm
      · rw [if_neg h1] at hm
        exact ih measured m hm

lemma checkInstrs_ok_iff :
    ∀ (l : List QInstruction) (measured : List Nat),
      checkInstrs l measured = .ok () ↔
      (∀ pre ins post, l = pre ++ ins :: post → ¬ ins.name = "measure" →
        ∀ q ∈ ins.qubits, q ∉ measured ++ measuredIn pre) := by
  intro l
  induction l with
  | nil =>
    intro measured
    constructor
    · intro _ pre ins post habs
      exact absurd ((List.append_eq_nil).mp habs.symm).2 (List.cons_ne_nil ins post)
    · intro _; rfl
  | cons i rest ih =>
    intro measured
    by_cases hname : (i.name == "measure") = true
    · have hmeq : i.name = "measure" := by simpa using hname
      have hstep : checkInstrs (i :: rest) measured =
          checkInstrs rest (measured ++ i.qubits) := by
        simp only [checkInstrs]
        rw [checkInstr_measure i.name hname, okBind]
      rw [hstep, ih]
      constructor
      · intro hall pre ins post hdec hnm q hq
        cases pre with
        | nil =>
          injection hdec with h1 h2
          exact absurd (h1 ▸ hmeq) hnm
        | cons p0 pre1 =>
          injection hdec with h1 h2
          subst h1
          have := hall pre1 ins post h2 hnm q hq
          simpa [measuredIn, hname, List.append_assoc] using this
      · intro hall pre ins post hdec hnm q hq
        have := hall (i :: pre) ins post (by rw [hdec]; rfl) hnm q hq
        simpa [measuredIn, hname, List.append_assoc] using this
    · have hf : (i.name == "measure") = false := by simpa using hname
      have hmne : ¬ i.name = "measure" := by simpa using hf
      by_cases hq : ∃ q ∈ i.qubits, q ∈ measured
      · have hstep : checkInstrs (i :: rest) measured =
            .error "Operation after measurement!" := by
          simp only [checkInstrs]
          rw [checkInstr_other_err i.name hf i.qubits measured hq, errorBind]
        rw [hstep]
        constructor
        · intro habs; exact Except.noConfusion habs
        · intro hall
          exfalso
          obtain ⟨q, hq1, hq2⟩ := hq
          have h3 := hall [] i rest rfl hmne q hq1
          simp [measuredIn] at h3
          exact h3 hq2
      · push_neg at hq
        have hstep : checkInstrs (i :: rest) measured = checkInstrs rest measured := by
          simp only [checkInstrs]
          rw [checkInstr_other_ok i.name hf i.qubits measured hq, okBind]
        rw [hstep, ih]
        constructor
        · intro hall pre ins post hdec hnm q hqin
          cases pre with
          | nil =>
            injection hdec with h1 h2
            subst h1
            simp only [measuredIn, List.append_nil]
            exact hq q hqin
          | cons p0 pre1 =>
            injection hdec with h1 h2
            subst h1
            have := hall pre1 ins post h2 hnm q hqin
            simpa [measuredIn, hf] using this
        · intro hall pre ins post hdec hnm q hqin
          have := hall (i :: pre) ins post (by rw [hdec]; rfl) hnm q hqin
          simpa [measuredIn, hf] using this

lemma checkInstrs_error_msg :
    ∀ (l : List QInstruction) (measured : List Nat) (m : String),
      checkInstrs l measured = .error m → m = "Operation after measurement!" := by
  intro l
  induction l with
  | nil => intro measured m hm; exact Except.noConfusion hm
  | cons i rest ih =>
    intro measured m hm
    simp only [checkInstrs] at hm
    cases hci : checkInstr i.name i.qubits measured with
    | error m2 =>
      rw [hci, errorBind] at hm
      injection hm with h2
      subst h2
      exact checkInstr_error_msg i.name i.qubits measured _ hci
    | ok measured1 =>
      rw [hci, okBind] at hm
      exact ih measured1 m hm

lemma opAfterMeasure_iff_checkInstrs (e : QExperiment) :
    OpAfterMeasure e ↔ ¬ (checkInstrs e.instructions [] = .ok ()) := by
  rw [checkInstrs_ok_iff]
  constructor
  · rintro ⟨pre, ins, post, hdec, hnm, q, hq1, hq2⟩ hall
    have h3 := hall pre ins post hdec hnm q hq1
    simp at h3
    exact h3 hq2
  · intro hno
    by_contra hcon
    apply hno
    intro pre ins post hdec hnm q hq1 habs
    apply hcon
    refine ⟨pre, ins, post, hdec, hnm, q, hq1, ?_⟩
    simpa using habs

lemma validate_experiments_ok_iff :
    ∀ l : List QExperiment, validate_experiments l = .ok () ↔
      ∀ e ∈ l, ¬ e.header.memory_slots < 1 ∧ checkInstrs e.instructions [] = .ok () := by
  intro l
  induction l with
  | nil => simp [validate_experiments]
  | cons e rest ih =>
    by_cases hc : e.header.memory_slots < 1
    · have hstep : validate_experiments (e :: rest) =
          .error ("Invalid amount of classical bits (" ++
            toString e.header.memory_slots ++ ")!") := by
        simp only [validate_experiments, validate_number_of_clbits]
        rw [if_pos hc, errorBind]
      rw [hstep]
      constructor
      · intro habs; exact Except.noConfusion habs
      · intro hall; exact absurd hc (hall e (List.mem_cons_self e rest)).1
    · have hstep : validate_experiments (e :: rest) =
          (validate_no_gates_after_measure e >>= fun _ => validate_experiments rest) := by
        simp only [validate_experiments, validate_number_of_clbits]
        rw [if_neg hc, okBind]
      rw [hstep, show validate_no_gates_after_measure e =
        checkInstrs e.instructions [] from rfl]
      cases hg : checkInstrs e.instructions [] with
      | error m =>
        rw [errorBind]
        constructor
        · intro habs; exact Except.noConfusion habs
        · intro hall
          have h2 := (hall e (List.mem_cons_self e rest)).2
          rw [hg] at h2
          exact Except.noConfusion h2
      | ok u =>
        obtain ⟨⟩ := u
        rw [okBind, ih]
        constructor
        · intro hall e2 he2
          rcases List.mem_cons.mp he2 with rfl | h2
          · exact ⟨hc, hg⟩
          · exact hall e2 h2
        · intro hall e2 he2
          exact hall e2 (List.mem_cons_of_mem e he2)

lemma validate_experiments_error_msg :
    ∀ (l : List QExperiment) (m : String), validate_experiments l = .error m →
      (∃ s, m = "Invalid amount of classical bits (" ++ s ++ ")!") ∨
      m = "Operation after measurement!" := by
  intro l
  induction l with
  | nil => intro m hm; exact Except.noConfusion hm
  | cons e rest ih =>
    intro m hm
    by_cases hc : e.header.memory_slots < 1
    · have hstep : validate_experiments (e :: rest) =
          .error ("Invalid amount of classical bits (" ++
            toString e.header.memory_slots ++ ")!") := by
        simp only [validate_experiments, validate_number_of_clbits]
        rw [if_pos hc, errorBind]
      rw [hstep] at hm
      injection hm with h2
      exact Or.inl ⟨toString e.header.memory_slots, h2.symm⟩
    · have hstep : validate_experiments (e :: rest) =
          (validate_no_gates_after_measure e >>= fun _ => validate_experiments rest) := by
        simp only [validate_experiments, validate_number_of_clbits]
        rw [if_neg hc, okBind]
      rw [hstep, show validate_no_gates_after_measure e =
        checkInstrs e.instructions [] from rfl] at hm
      cases hg : checkInstrs e.instructions [] with
      | error m2 =>
        rw [hg, errorBind] at hm
        injection hm with h2
        rw [← h2]
        exact Or.inr (checkInstrs_error_msg e.instructions [] m2 hg)
      | ok u =>
        rw [hg, okBind] at hm
        exact ih m hm

/-! ### Claim C9 -/

/-- C9: `run` validates the qobj before submitting anything, and validation
rejects a qobj exactly when the configured shots count is below 1 (with the
invalid-shots message), an experiment declares fewer than 1 classical bit
(with the invalid-classical-bits message), or an experiment applies a
non-`measure` instruction to a previously measured qubit (with the
operation-after-measurement message); a qobj violating none of these passes
validation, and a validation error propagates unchanged through `run`. -/
theorem validate_spec (job : Qobj) :
    (validate job = .ok () ↔
      ¬(job.shots < 1 ∨ ∃ e ∈ job.experiments,
          e.header.memory_slots < 1 ∨ OpAfterMeasure e)) ∧
    (job.shots < 1 →
      validate job = .error ("Invalid shots (number_of_shots=" ++
        toString job.shots ++ ")")) ∧
    (∀ m, validate job = .error m →
      (∃ s, m = "Invalid shots (number_of_shots=" ++ s ++ ")") ∨
      (∃ s, m = "Invalid amount of classical bits (" ++ s ++ ")!") ∨
      m = "Operation after measurement!") ∧
    (∀ m, validate job = .error m → run job = .error m) := by
  by_cases hs : job.shots < 1
  · have hv : validate job = .error ("Invalid shots (number_of_shots=" ++
        toString job.shots ++ ")") := by
      simp only [validate, validate_number_of_shots]
      rw [if_pos hs, errorBind]
    refine ⟨?_, fun _ => hv, ?_, ?_⟩
    · rw [hv]
      constructor
      · intro habs; exact Except.noConfusion habs
      · intro hno; exact absurd (Or.inl hs) hno
    · intro m hm
      rw [hv] at hm
      injection hm with h2
      exact Or.inl ⟨toString job.shots, h2.symm⟩
    · intro m hm
      simp only [run]
      rw [hm, errorBind]
  · have hv : validate job = validate_experiments job.experiments := by
      simp only [validate, validate_number_of_shots]
      rw [if_neg hs, okBind]
    refine ⟨?_, fun hcon => absurd hcon hs, ?_, ?_⟩
    · rw [hv, validate_experiments_ok_iff]
      constructor
      · intro hall hcon
        rcases hcon with hcon | ⟨e, he, hcon⟩
        · exact hs hcon
        · rcases hcon with hcon | hcon
          · exact (hall e he).1 hcon
          · exact ((opAfterMeasure_iff_checkInstrs e).mp hcon) (hall e he).2
      · intro hno e he
        constructor
        · intro hcon; exact hno (Or.inr ⟨e, he, Or.inl hcon⟩)
        · by_contra hcon
          exact hno (Or.inr ⟨e, he, Or.inr ((opAfterMeasure_iff_checkInstrs e).mpr hcon)⟩)
    · intro m hm
      rw [hv] at hm
      rcases validate_experiments_error_msg job.experiments m hm with h | h
      · exact Or.inr (Or.inl h)
      · exact Or.inr (Or.inr h)
    · intro m hm
      simp only [run]
      rw [hm, errorBind]

/-- C9 witness: a qobj with zero shots is rejected by validation and by `run`
with the invalid-shots message. -/
theorem validate_spec_witness :
    validate { shots := 0, experiments := [] } =
      .error ("Invalid shots (number_of_shots=" ++ toString (0 : Int) ++ ")") ∧
    run { shots := 0, experiments := [] } =
      .error ("Invalid shots (number_of_shots=" ++ toString (0 : Int) ++ ")") := by
  have h := validate_spec { shots := 0, experiments := [] }
  have h2 := h.2.1 (by norm_num)
  exact ⟨h2, h.2.2.2 _ h2⟩
